import Mathlib

/-!
Shallow embedding of `planner.py`: a grid-world vacuum planner with a
depth-first strategy (`dfs`), a uniform-cost strategy (`ucs`) and a successor
generator (`move`).  Positions are pairs of integers (row, column); the dirty
set is a finite set of positions (Python canonicalizes a dirty set by the
sorted tuple of its elements, which is in bijection with the set itself, so a
`Finset` is the faithful key type).  The grid is a list of rows of characters,
as built by the loader; rows are assumed rectangular (a ragged row would make
the Python program raise, which is outside the engine's contract).
-/

/-- A board position `(row, column)`. -/
abbrev Pos := Int × Int

/-- A search state: agent position together with the set of dirty cells. -/
abbrev State := Pos × Finset Pos

/-- The five robot actions (`ACTIONS = ['N','S','E','W','V']`). -/
inductive Act
  | N | S | E | W | V
deriving DecidableEq, Fintype

/-- `ACTIONS` — the fixed enumeration order used by both strategies. -/
def ACTIONS : List Act := [.N, .S, .E, .W, .V]

/-- `MOVES` — row/column delta of each direction.  The Python dict has no
entry for `V`; `move` tests for `V` before ever consulting `MOVES`, so the
`V` row below is dead code kept only for totality. -/
def MOVES : Act → Int × Int
  | .N => (-1, 0)
  | .S => (1, 0)
  | .E => (0, 1)
  | .W => (0, -1)
  | .V => (0, 0)

/-- The world map: a list of rows of characters; `'#'` marks a wall. -/
abbrev Grid := List (List Char)

/-- `len(GRID)` as an integer. -/
def gridHeight (g : Grid) : Int := g.length

/-- `len(GRID[0])` as an integer (0 for an empty grid; Python short-circuits
the bounds test before ever indexing an empty grid). -/
def gridWidth (g : Grid) : Int := (g.headD []).length

/-- `GRID[r][c]`; only consulted after the bounds check, so the defaults are
never reached on a rectangular grid. -/
def cellAt (g : Grid) (r c : Int) : Char := (g.getD r.toNat []).getD c.toNat '#'

/-- `move(robot_pos, dirty, action)`: the successor generator.  Returns
`some` of the new state, or `none` for the Python `(None, None)` rejection. -/
def move (g : Grid) (robot_pos : Pos) (dirty : Finset Pos) (action : Act) :
    Option State :=
  if action = Act.V then
    if robot_pos ∈ dirty then some (robot_pos, dirty.erase robot_pos)
    else none
  else
    let d := MOVES action
    let nr := robot_pos.1 + d.1
    let nc := robot_pos.2 + d.2
    if 0 ≤ nr ∧ nr < gridHeight g ∧ 0 ≤ nc ∧ nc < gridWidth g then
      if cellAt g nr nc ≠ '#' then some ((nr, nc), dirty) else none
    else none

/-- The successor frames pushed by one `dfs` expansion, in `ACTIONS` order:
`(new_state, path + [action])` for each accepted action. -/
def pushSuccs (g : Grid) (s : State) (path : List Act) :
    List (State × List Act) :=
  ACTIONS.filterMap fun a => (move g s.1 s.2 a).map fun s' => (s', path ++ [a])

/-- The `while stack:` loop of `dfs`, with explicit fuel (outer `none` means
the fuel ran out; a sufficient fuel is proved below).  `stack.pop()` takes the
last element; the goal test precedes the visited test, exactly as in the
source. -/
def dfsGo (g : Grid) :
    Nat → List (State × List Act) → Finset State → Nat → Nat →
      Option (Option (List Act) × Nat × Nat)
  | 0, _, _, _, _ => none
  | fuel + 1, stack, visited, gen, exp =>
    match stack.getLast? with
    | none => some (none, gen, exp)
    | some (s, p) =>
      if s.2 = ∅ then some (some p, gen, exp + 1)
      else if s ∈ visited then dfsGo g fuel stack.dropLast visited gen (exp + 1)
      else
        dfsGo g fuel (stack.dropLast ++ pushSuccs g s p) (insert s visited)
          (gen + (pushSuccs g s p).length) (exp + 1)

/-- The successor entries enqueued by one `ucs` expansion:
`(cost + 1, new_state, path + [action])` for each accepted action. -/
def succEntries (g : Grid) (cost : Nat) (s : State) (path : List Act) :
    List (Nat × State × List Act) :=
  ACTIONS.filterMap fun a =>
    (move g s.1 s.2 a).map fun s' => (cost + 1, s', path ++ [a])

/-- The manual minimum scan of `ucs` (`for i in range(1, len(frontier))`):
`best` is the running lowest index, `bestCost` its cost, `i` the index of the
head of the remaining list; the index advances only on a strictly smaller
cost. -/
def lowestIndexAux : List (Nat × State × List Act) → Nat → Nat → Nat → Nat
  | [], best, _, _ => best
  | e :: rest, best, bestCost, i =>
    if e.1 < bestCost then lowestIndexAux rest i e.1 (i + 1)
    else lowestIndexAux rest best bestCost (i + 1)

/-- `lowest_index` for the non-empty frontier `e :: rest`. -/
def lowestIndex (e : Nat × State × List Act)
    (rest : List (Nat × State × List Act)) : Nat :=
  lowestIndexAux rest 0 e.1 1

/-- The `while frontier:` loop of `ucs`, with explicit fuel.
`frontier.pop(lowest_index)` is the `getD`/`eraseIdx` pair. -/
def ucsGo (g : Grid) :
    Nat → List (Nat × State × List Act) → Finset State → Nat → Nat →
      Option (Option (List Act) × Nat × Nat)
  | 0, _, _, _, _ => none
  | fuel + 1, frontier, visited, gen, exp =>
    match frontier with
    | [] => some (none, gen, exp)
    | e :: rest =>
      let popped := (e :: rest).getD (lowestIndex e rest) e
      let rem := (e :: rest).eraseIdx (lowestIndex e rest)
      if popped.2.1.2 = ∅ then some (some popped.2.2, gen, exp + 1)
      else if popped.2.1 ∈ visited then ucsGo g fuel rem visited gen (exp + 1)
      else
        ucsGo g fuel (rem ++ succEntries g popped.1 popped.2.1 popped.2.2)
          (insert popped.2.1 visited)
          (gen + (succEntries g popped.1 popped.2.1 popped.2.2).length) (exp + 1)

/-- All in-bounds positions of the grid, as a finite set. -/
def gridPositions (g : Grid) : Finset Pos :=
  ((Finset.range g.length) ×ˢ (Finset.range (g.headD []).length)).image
    fun rc => ((rc.1 : Int), (rc.2 : Int))

/-- Positions any frame of a search started at `s₀` can mention. -/
def posSpace (g : Grid) (s₀ : State) : Finset Pos :=
  insert s₀.1 (gridPositions g)

/-- A finite superset of every state a search started at `s₀` can reach:
dirt never grows, positions stay on the board (or at the seed). -/
def stateSpace (g : Grid) (s₀ : State) : Finset State :=
  (posSpace g s₀) ×ˢ s₀.2.powerset

/-- Fuel sufficient for either loop to run to completion (proved below):
each iteration removes one frame, and at most `|stateSpace|` iterations push
at most five frames each. -/
def initFuel (g : Grid) (s₀ : State) : Nat := 5 * (stateSpace g s₀).card + 2

/-- `dfs(initial_state)`.  The `getD` fallback is never taken: `initFuel` is
proved sufficient. -/
def dfs (g : Grid) (initial_state : State) :
    Option (List Act) × Nat × Nat :=
  (dfsGo g (initFuel g initial_state) [(initial_state, [])] ∅ 1 0).getD
    (none, 0, 0)

/-- `ucs(initial_state)`.  The `getD` fallback is never taken: `initFuel` is
proved sufficient. -/
def ucs (g : Grid) (initial_state : State) :
    Option (List Act) × Nat × Nat :=
  (ucsGo g (initFuel g initial_state) [(0, initial_state, [])] ∅ 1 0).getD
    (none, 0, 0)

/-- Replaying an action sequence through the successor generator. -/
def replay (g : Grid) : State → List Act → Option State
  | s, [] => some s
  | s, a :: p => (move g s.1 s.2 a).bind fun s' => replay g s' p

/-- `t` is reachable from `s` by some accepted action sequence of length
`n` — the induced state graph's path relation. -/
def ReachN (g : Grid) (n : Nat) (s t : State) : Prop :=
  ∃ p : List Act, replay g s p = some t ∧ p.length = n

/-! ### Basic lemmas about the successor generator and replay -/

/-- Characterization of a successful vacuum action. -/
lemma move_eq_some_V {g : Grid} {pos : Pos} {dirty : Finset Pos} {s' : State} :
    move g pos dirty Act.V = some s' ↔
      pos ∈ dirty ∧ s' = (pos, dirty.erase pos) := by
  simp only [move, if_pos rfl]
  split
  · simp_all [eq_comm]
  · simp_all

/-- Characterization of a successful directional action. -/
lemma move_eq_some_dir {g : Grid} {pos : Pos} {dirty : Finset Pos} {a : Act}
    {s' : State} (ha : a ≠ Act.V) :
    move g pos dirty a = some s' ↔
      (0 ≤ pos.1 + (MOVES a).1 ∧ pos.1 + (MOVES a).1 < gridHeight g ∧
        0 ≤ pos.2 + (MOVES a).2 ∧ pos.2 + (MOVES a).2 < gridWidth g) ∧
      cellAt g (pos.1 + (MOVES a).1) (pos.2 + (MOVES a).2) ≠ '#' ∧
      s' = ((pos.1 + (MOVES a).1, pos.2 + (MOVES a).2), dirty) := by
  simp only [move, if_neg ha]
  split
  · split
    · simp_all [eq_comm]
    · simp_all
  · simp_all

/-- Any successor's dirty set is contained in the current one. -/
lemma move_dirty_subset {g : Grid} {pos : Pos} {dirty : Finset Pos} {a : Act}
    {s' : State} (h : move g pos dirty a = some s') : s'.2 ⊆ dirty := by
  by_cases ha : a = Act.V
  · subst ha
    rcases move_eq_some_V.mp h with ⟨-, rfl⟩
    exact Finset.erase_subset _ _
  · rcases (move_eq_some_dir ha).mp h with ⟨-, -, rfl⟩
    exact Finset.Subset.refl _

/-- Any successor's position is the current one or an in-bounds cell. -/
lemma move_pos_mem {g : Grid} {pos : Pos} {dirty : Finset Pos} {a : Act}
    {s' : State} (h : move g pos dirty a = some s') :
    s'.1 = pos ∨ s'.1 ∈ gridPositions g := by
  by_cases ha : a = Act.V
  · subst ha
    rcases move_eq_some_V.mp h with ⟨-, rfl⟩
    exact Or.inl rfl
  · rcases (move_eq_some_dir ha).mp h with ⟨⟨h1, h2, h3, h4⟩, -, rfl⟩
    refine Or.inr ?_
    simp only [gridPositions, Finset.mem_image, Finset.mem_product,
      Finset.mem_range, Prod.exists]
    refine ⟨(pos.1 + (MOVES a).1).toNat, (pos.2 + (MOVES a).2).toNat,
      ⟨?_, ?_⟩, ?_⟩
    · simp only [gridHeight] at h2; omega
    · simp only [gridWidth] at h4; omega
    · simp only [Prod.mk.injEq]
      constructor <;> omega

/-- Membership in the dfs successor list. -/
lemma mem_pushSuccs {g : Grid} {s : State} {path : List Act}
    {e : State × List Act} :
    e ∈ pushSuccs g s path ↔
      ∃ a, move g s.1 s.2 a = some e.1 ∧ e.2 = path ++ [a] := by
  simp only [pushSuccs, List.mem_filterMap, Option.map_eq_some']
  constructor
  · rintro ⟨a, -, s', hm, rfl⟩
    exact ⟨a, hm, rfl⟩
  · rintro ⟨a, hm, he⟩
    refine ⟨a, by cases a <;> simp [ACTIONS], e.1, hm, ?_⟩
    cases e
    simp_all

/-- Membership in the ucs successor list. -/
lemma mem_succEntries {g : Grid} {cost : Nat} {s : State} {path : List Act}
    {e : Nat × State × List Act} :
    e ∈ succEntries g cost s path ↔
      ∃ a, move g s.1 s.2 a = some e.2.1 ∧ e.1 = cost + 1 ∧
        e.2.2 = path ++ [a] := by
  simp only [succEntries, List.mem_filterMap, Option.map_eq_some']
  constructor
  · rintro ⟨a, -, s', hm, rfl⟩
    exact ⟨a, hm, rfl, rfl⟩
  · rintro ⟨a, hm, hc, he⟩
    refine ⟨a, by cases a <;> simp [ACTIONS], e.2.1, hm, ?_⟩
    obtain ⟨c, s'', p⟩ := e
    simp_all

/-- At most five successors are ever pushed at once. -/
lemma pushSuccs_length_le (g : Grid) (s : State) (path : List Act) :
    (pushSuccs g s path).length ≤ 5 :=
  le_trans (List.length_filterMap_le _ _) (by simp [ACTIONS])

/-- At most five entries are ever enqueued at once. -/
lemma succEntries_length_le (g : Grid) (cost : Nat) (s : State)
    (path : List Act) : (succEntries g cost s path).length ≤ 5 :=
  le_trans (List.length_filterMap_le _ _) (by simp [ACTIONS])

/-- Replay distributes over concatenation. -/
lemma replay_append (g : Grid) (s : State) (p q : List Act) :
    replay g s (p ++ q) = (replay g s p).bind fun t => replay g t q := by
  induction p generalizing s with
  | nil => simp [replay]
  | cons a p ih =>
    simp only [List.cons_append, replay]
    cases move g s.1 s.2 a with
    | none => simp
    | some s' => simp [ih]

/-- Zero-length reachability is equality. -/
lemma reachN_zero {g : Grid} {s t : State} : ReachN g 0 s t ↔ s = t := by
  constructor
  · rintro ⟨p, hp, hlen⟩
    rw [List.length_eq_zero] at hlen
    subst hlen
    simpa [replay] using hp
  · rintro rfl
    exact ⟨[], rfl, rfl⟩

/-- Successor-step decomposition of reachability. -/
lemma reachN_succ {g : Grid} {n : Nat} {s t : State} :
    ReachN g (n + 1) s t ↔
      ∃ a w, move g s.1 s.2 a = some w ∧ ReachN g n w t := by
  constructor
  · rintro ⟨p, hp, hlen⟩
    cases p with
    | nil => simp at hlen
    | cons a p =>
      simp only [replay] at hp
      cases hm : move g s.1 s.2 a with
      | none => rw [hm] at hp; simp at hp
      | some w =>
        rw [hm] at hp
        exact ⟨a, w, hm, p, hp, by simpa using hlen⟩
  · rintro ⟨a, w, hm, p, hp, hlen⟩
    exact ⟨a :: p, by simp [replay, hm, hp], by simp [hlen]⟩

/-- Reachability extends by one accepted action at the end. -/
lemma reachN_snoc {g : Grid} {n : Nat} {s w u : State} {a : Act}
    (h : ReachN g n s w) (hm : move g w.1 w.2 a = some u) :
    ReachN g (n + 1) s u := by
  rcases h with ⟨p, hp, hlen⟩
  refine ⟨p ++ [a], ?_, by simp [hlen]⟩
  rw [replay_append, hp]
  simp [replay, hm]

/-- Unfolding of the state-space superset. -/
lemma mem_stateSpace {g : Grid} {s₀ s : State} :
    s ∈ stateSpace g s₀ ↔ s.1 ∈ posSpace g s₀ ∧ s.2 ⊆ s₀.2 := by
  unfold stateSpace
  rw [Finset.mem_product, Finset.mem_powerset]

/-! ### List bookkeeping lemmas -/

/-- In-range `getD` ignores its default. -/
lemma getD_in_range {α : Type} {l : List α} {i : Nat} (h : i < l.length)
    (d d' : α) : l.getD i d = l.getD i d' := by
  simp [List.getD_eq_getElem?_getD, List.getElem?_eq_getElem h]

/-- In-range `getD` is a member. -/
lemma getD_mem_of_lt {α : Type} {l : List α} {i : Nat} (h : i < l.length)
    (d : α) : l.getD i d ∈ l := by
  rw [List.getD_eq_getElem?_getD, List.getElem?_eq_getElem h]
  exact List.getElem_mem h

/-- Erasing an index keeps any element different from the one at that index. -/
lemma mem_eraseIdx_of_ne {α : Type} {l : List α} {i : Nat} {e : α}
    (hi : i < l.length) (he : e ∈ l) (hne : e ≠ l.getD i e) :
    e ∈ l.eraseIdx i := by
  rw [List.mem_iff_getElem] at he
  obtain ⟨j, hj, rfl⟩ := he
  rw [List.mem_eraseIdx_iff_getElem]
  refine ⟨j, hj, fun hji => hne ?_, rfl⟩
  subst hji
  simp [List.getD_eq_getElem?_getD, List.getElem?_eq_getElem hj]

/-- Erasing an index produces a sublist of the original members. -/
lemma mem_of_mem_eraseIdx' {α : Type} {l : List α} {i : Nat} {e : α}
    (h : e ∈ l.eraseIdx i) : e ∈ l := by
  rw [List.mem_eraseIdx_iff_getElem] at h
  obtain ⟨j, hj, -, rfl⟩ := h
  exact List.getElem_mem hj

/-- Unpacking `full.drop i = e :: rest`. -/
lemma drop_cons_facts {α : Type} {full : List α} {i : Nat} {e : α}
    {rest : List α} (h : full.drop i = e :: rest) :
    i < full.length ∧ full.drop (i + 1) = rest ∧ ∀ d, full.getD i d = e := by
  have hl : i < full.length := by
    by_contra hle
    rw [List.drop_eq_nil_of_le (by omega)] at h
    exact List.cons_ne_nil _ _ h.symm
  have h2 : full.drop (i + 1) = rest := by
    have := congrArg List.tail h
    simpa [List.tail_drop] using this
  refine ⟨hl, h2, fun d => ?_⟩
  have := congrArg List.head? h
  rw [List.head?_drop] at this
  simp only [List.head?_cons] at this
  simp [List.getD_eq_getElem?_getD, this]

/-- The scan invariant of `lowestIndexAux`: starting from a best index whose
cost is minimal among the first `i` entries (and strictly below every earlier
entry), the result is an in-range index of minimal cost, strictly below every
earlier entry of the whole list. -/
lemma lowestIndexAux_spec (d : Nat × State × List Act) :
    ∀ (l full : List (Nat × State × List Act)) (best i : Nat),
      full.drop i = l → best < i → best < full.length →
      (∀ j, j < i → (full.getD best d).1 ≤ (full.getD j d).1) →
      (∀ j, j < best → (full.getD best d).1 < (full.getD j d).1) →
      lowestIndexAux l best (full.getD best d).1 i < full.length ∧
      (∀ j, j < full.length →
        (full.getD (lowestIndexAux l best (full.getD best d).1 i) d).1 ≤
          (full.getD j d).1) ∧
      (∀ j, j < lowestIndexAux l best (full.getD best d).1 i →
        (full.getD (lowestIndexAux l best (full.getD best d).1 i) d).1 <
          (full.getD j d).1) := by
  intro l
  induction l with
  | nil =>
    intro full best i hdrop hbi hblen hmin hfirst
    have hfull : full.length ≤ i := by
      by_contra hc
      have : full.drop i ≠ [] := by
        intro hnil
        have := congrArg List.length hnil
        simp [List.length_drop] at this
        omega
      exact this hdrop
    simp only [lowestIndexAux]
    exact ⟨hblen, fun j hj => hmin j (by omega), hfirst⟩
  | cons e rest ih =>
    intro full best i hdrop hbi hblen hmin hfirst
    obtain ⟨hil, hdrop', hgetD⟩ := drop_cons_facts hdrop
    simp only [lowestIndexAux]
    by_cases hlt : e.1 < (full.getD best d).1
    · rw [if_pos hlt]
      have hmin' : ∀ j, j < i + 1 →
          (full.getD i d).1 ≤ (full.getD j d).1 := by
        intro j hj
        rw [hgetD d]
        rcases Nat.lt_succ_iff_lt_or_eq.mp hj with hj' | rfl
        · exact le_of_lt (lt_of_lt_of_le hlt (hmin j hj'))
        · rw [hgetD d]
      have hfirst' : ∀ j, j < i →
          (full.getD i d).1 < (full.getD j d).1 := by
        intro j hj
        rw [hgetD d]
        exact lt_of_lt_of_le hlt (hmin j hj)
      have hres := ih full i (i + 1) hdrop' (by omega) hil hmin' hfirst'
      rw [hgetD d] at hres
      exact hres
    · rw [if_neg hlt]
      refine ih full best (i + 1) hdrop' (by omega) hblen
        (fun j hj => ?_) hfirst
      rcases Nat.lt_succ_iff_lt_or_eq.mp hj with hj' | rfl
      · exact hmin j hj'
      · rw [hgetD d]
        omega

/-- The entry selected by the frontier scan: an in-range index of minimal
accumulated cost, with every strictly earlier (earlier-inserted) entry of
strictly larger cost. -/
lemma lowestIndex_spec (e : Nat × State × List Act)
    (rest : List (Nat × State × List Act)) :
    lowestIndex e rest < (e :: rest).length ∧
    (∀ j, j < (e :: rest).length →
      ((e :: rest).getD (lowestIndex e rest) e).1 ≤
        ((e :: rest).getD j e).1) ∧
    (∀ j, j < lowestIndex e rest →
      ((e :: rest).getD (lowestIndex e rest) e).1 <
        ((e :: rest).getD j e).1) := by
  have h0 : (e :: rest).getD 0 e = e := rfl
  have := lowestIndexAux_spec e rest (e :: rest) 0 1 rfl (by omega)
    (by simp) (fun j hj => by interval_cases j; simp)
    (fun j hj => by omega)
  rw [h0] at this
  exact this

/-- The selected entry's cost is a lower bound for every frontier member. -/
lemma lowestIndex_min_mem (e : Nat × State × List Act)
    (rest : List (Nat × State × List Act)) {f : Nat × State × List Act}
    (hf : f ∈ e :: rest) :
    ((e :: rest).getD (lowestIndex e rest) e).1 ≤ f.1 := by
  rw [List.mem_iff_getElem] at hf
  obtain ⟨j, hj, rfl⟩ := hf
  have h := (lowestIndex_spec e rest).2.1 j hj
  simp only [List.getD_eq_getElem?_getD] at h ⊢
  rwa [List.getElem?_eq_getElem hj] at h

/-- The selected entry is a frontier member. -/
lemma lowestIndex_getD_mem (e : Nat × State × List Act)
    (rest : List (Nat × State × List Act)) :
    (e :: rest).getD (lowestIndex e rest) e ∈ e :: rest :=
  getD_mem_of_lt (lowestIndex_spec e rest).1 e

/-! ### Termination: the fuel is sufficient -/

/-- Successors of a state of the finite superset stay inside it. -/
lemma move_mem_stateSpace {g : Grid} {s₀ s s' : State} {a : Act}
    (hs : s ∈ stateSpace g s₀) (hm : move g s.1 s.2 a = some s') :
    s' ∈ stateSpace g s₀ := by
  rw [mem_stateSpace] at hs ⊢
  refine ⟨?_, fun x hx => hs.2 (move_dirty_subset hm hx)⟩
  rcases move_pos_mem hm with h | h
  · rw [h]; exact hs.1
  · exact Finset.mem_insert_of_mem h

/-- Removing a freshly visited superset state shrinks the unvisited count. -/
lemma card_sdiff_insert {g : Grid} {s₀ s : State} {visited : Finset State}
    (hs : s ∈ stateSpace g s₀) (hv : s ∉ visited) :
    (stateSpace g s₀ \ insert s visited).card + 1 =
      (stateSpace g s₀ \ visited).card := by
  rw [Finset.sdiff_insert,
    Finset.card_erase_of_mem (Finset.mem_sdiff.mpr ⟨hs, hv⟩)]
  have : 0 < (stateSpace g s₀ \ visited).card :=
    Finset.card_pos.mpr ⟨s, Finset.mem_sdiff.mpr ⟨hs, hv⟩⟩
  omega

/-- The dfs loop completes on any fuel above its loop-count measure: each
iteration consumes a frame, and only the first expansion of each superset
state (at most `|stateSpace|` of them) pushes new frames, at most five. -/
lemma dfsGo_succeeds (g : Grid) (s₀ : State) :
    ∀ (fuel : Nat) (stack : List (State × List Act)) (visited : Finset State)
      (gen exp : Nat),
      (∀ e ∈ stack, e.1 ∈ stateSpace g s₀) →
      stack.length + 5 * ((stateSpace g s₀) \ visited).card < fuel →
      ∃ r, dfsGo g fuel stack visited gen exp = some r := by
  intro fuel
  induction fuel with
  | zero => intro stack visited gen exp hstack hfuel; omega
  | succ fuel ih =>
    intro stack visited gen exp hstack hfuel
    cases hlast : stack.getLast? with
    | none => exact ⟨(none, gen, exp), by simp [dfsGo, hlast]⟩
    | some f =>
      obtain ⟨s, p⟩ := f
      have hsp : (s, p) ∈ stack := List.mem_of_getLast?_eq_some hlast
      have hpos : 0 < stack.length :=
        List.length_pos.mpr (by rintro rfl; simp at hlast)
      have hlen : stack.dropLast.length = stack.length - 1 :=
        List.length_dropLast stack
      simp only [dfsGo, hlast]
      by_cases hgoal : s.2 = ∅
      · rw [if_pos hgoal]
        exact ⟨(some p, gen, exp + 1), rfl⟩
      · rw [if_neg hgoal]
        by_cases hv : s ∈ visited
        · rw [if_pos hv]
          exact ih stack.dropLast visited gen (exp + 1)
            (fun e he => hstack e (List.dropLast_subset _ he)) (by omega)
        · rw [if_neg hv]
          have hsS : s ∈ stateSpace g s₀ := hstack _ hsp
          have hcard := card_sdiff_insert hsS hv
          have hpush := pushSuccs_length_le g s p
          refine ih _ _ (gen + (pushSuccs g s p).length) (exp + 1)
            (fun e he => ?_) ?_
          · rcases List.mem_append.mp he with he | he
            · exact hstack e (List.dropLast_subset _ he)
            · obtain ⟨a, hm, -⟩ := mem_pushSuccs.mp he
              exact move_mem_stateSpace hsS hm
          · rw [List.length_append]
            omega

/-- The ucs loop completes on any fuel above the same measure. -/
lemma ucsGo_succeeds (g : Grid) (s₀ : State) :
    ∀ (fuel : Nat) (frontier : List (Nat × State × List Act))
      (visited : Finset State) (gen exp : Nat),
      (∀ e ∈ frontier, e.2.1 ∈ stateSpace g s₀) →
      frontier.length + 5 * ((stateSpace g s₀) \ visited).card < fuel →
      ∃ r, ucsGo g fuel frontier visited gen exp = some r := by
  intro fuel
  induction fuel with
  | zero => intro frontier visited gen exp hfront hfuel; omega
  | succ fuel ih =>
    intro frontier visited gen exp hfront hfuel
    cases frontier with
    | nil => exact ⟨(none, gen, exp), by simp [ucsGo]⟩
    | cons e rest =>
      have hidx := (lowestIndex_spec e rest).1
      have hmem := lowestIndex_getD_mem e rest
      have hrem : ((e :: rest).eraseIdx (lowestIndex e rest)).length =
          (e :: rest).length - 1 := List.length_eraseIdx_of_lt hidx
      have hlc : (e :: rest).length = rest.length + 1 := by simp
      simp only [ucsGo]
      by_cases hgoal : ((e :: rest).getD (lowestIndex e rest) e).2.1.2 = ∅
      · rw [if_pos hgoal]
        exact ⟨_, rfl⟩
      · rw [if_neg hgoal]
        by_cases hv : ((e :: rest).getD (lowestIndex e rest) e).2.1 ∈ visited
        · rw [if_pos hv]
          refine ih _ visited gen (exp + 1)
            (fun f hf => hfront f (mem_of_mem_eraseIdx' hf)) ?_
          simp only [List.length_cons] at hfuel
          omega
        · rw [if_neg hv]
          have hsS := hfront _ hmem
          have hcard := card_sdiff_insert hsS hv
          have hpush := succEntries_length_le g
            ((e :: rest).getD (lowestIndex e rest) e).1
            ((e :: rest).getD (lowestIndex e rest) e).2.1
            ((e :: rest).getD (lowestIndex e rest) e).2.2
          refine ih _ _ _ (exp + 1) (fun f hf => ?_) ?_
          · rcases List.mem_append.mp hf with hf | hf
            · exact hfront f (mem_of_mem_eraseIdx' hf)
            · obtain ⟨a, hm, -⟩ := mem_succEntries.mp hf
              exact move_mem_stateSpace hsS hm
          · rw [List.length_append]
            simp only [List.length_cons] at hfuel
            omega

/-- The initial fuel is strictly above the initial measure. -/
lemma initFuel_gt (g : Grid) (s₀ : State) :
    1 + 5 * ((stateSpace g s₀) \ ∅).card < initFuel g s₀ := by
  rw [Finset.sdiff_empty, initFuel]
  omega

/-- The seed frame lies inside the superset. -/
lemma seed_mem_stateSpace (g : Grid) (s₀ : State) :
    s₀ ∈ stateSpace g s₀ :=
  mem_stateSpace.mpr ⟨Finset.mem_insert_self _ _, Finset.Subset.refl _⟩

/-- `dfs` computes the loop's genuine result: the fuelled run completes. -/
lemma dfs_run (g : Grid) (s₀ : State) :
    ∃ r, dfsGo g (initFuel g s₀) [(s₀, [])] ∅ 1 0 = some r ∧ dfs g s₀ = r := by
  obtain ⟨r, hr⟩ := dfsGo_succeeds g s₀ (initFuel g s₀) [(s₀, [])] ∅ 1 0
    (by intro e he
        simp only [List.mem_singleton] at he
        subst he
        exact seed_mem_stateSpace g s₀)
    (by simpa using initFuel_gt g s₀)
  refine ⟨r, hr, ?_⟩
  unfold dfs
  rw [hr]
  rfl

/-- `ucs` computes the loop's genuine result: the fuelled run completes. -/
lemma ucs_run (g : Grid) (s₀ : State) :
    ∃ r, ucsGo g (initFuel g s₀) [(0, s₀, [])] ∅ 1 0 = some r ∧
      ucs g s₀ = r := by
  obtain ⟨r, hr⟩ := ucsGo_succeeds g s₀ (initFuel g s₀) [(0, s₀, [])] ∅ 1 0
    (by intro e he
        simp only [List.mem_singleton] at he
        subst he
        exact seed_mem_stateSpace g s₀)
    (by simpa using initFuel_gt g s₀)
  refine ⟨r, hr, ?_⟩
  unfold ucs
  rw [hr]
  rfl

/-! ### Counter invariant: expanded never exceeds generated -/

/-- Every frame popped (counted by `nodes_expanded`) was first counted by
`nodes_generated`: the loop keeps `exp + |stack| ≤ gen`. -/
lemma dfsGo_exp_le_gen (g : Grid) :
    ∀ (fuel : Nat) (stack : List (State × List Act)) (visited : Finset State)
      (gen exp : Nat) (r : Option (List Act) × Nat × Nat),
      dfsGo g fuel stack visited gen exp = some r →
      exp + stack.length ≤ gen → r.2.2 ≤ r.2.1 := by
  intro fuel
  induction fuel with
  | zero => intro stack visited gen exp r hrun; simp [dfsGo] at hrun
  | succ fuel ih =>
    intro stack visited gen exp r hrun hinv
    cases hlast : stack.getLast? with
    | none =>
      have hnil : stack = [] := List.getLast?_eq_none_iff.mp hlast
      subst hnil
      simp only [dfsGo, hlast] at hrun
      obtain rfl := (Option.some.injEq _ _).mp hrun.symm
      simpa using hinv
    | some f =>
      obtain ⟨s, p⟩ := f
      have hpos : 0 < stack.length :=
        List.length_pos.mpr (by rintro rfl; simp at hlast)
      have hlen : stack.dropLast.length = stack.length - 1 :=
        List.length_dropLast stack
      simp only [dfsGo, hlast] at hrun
      by_cases hgoal : s.2 = ∅
      · rw [if_pos hgoal] at hrun
        obtain rfl := (Option.some.injEq _ _).mp hrun.symm
        simp only
        omega
      · rw [if_neg hgoal] at hrun
        by_cases hv : s ∈ visited
        · rw [if_pos hv] at hrun
          exact ih _ _ _ _ _ hrun (by omega)
        · rw [if_neg hv] at hrun
          refine ih _ _ _ _ _ hrun ?_
          rw [List.length_append]
          omega

/-- Same invariant for the ucs loop. -/
lemma ucsGo_exp_le_gen (g : Grid) :
    ∀ (fuel : Nat) (frontier : List (Nat × State × List Act))
      (visited : Finset State) (gen exp : Nat)
      (r : Option (List Act) × Nat × Nat),
      ucsGo g fuel frontier visited gen exp = some r →
      exp + frontier.length ≤ gen → r.2.2 ≤ r.2.1 := by
  intro fuel
  induction fuel with
  | zero => intro frontier visited gen exp r hrun; simp [ucsGo] at hrun
  | succ fuel ih =>
    intro frontier visited gen exp r hrun hinv
    cases frontier with
    | nil =>
      simp only [ucsGo] at hrun
      obtain rfl := (Option.some.injEq _ _).mp hrun.symm
      simpa using hinv
    | cons e rest =>
      have hidx := (lowestIndex_spec e rest).1
      have hrem : ((e :: rest).eraseIdx (lowestIndex e rest)).length =
          (e :: rest).length - 1 := List.length_eraseIdx_of_lt hidx
      have hlc : (e :: rest).length = rest.length + 1 := by simp
      simp only [ucsGo] at hrun
      by_cases hgoal : ((e :: rest).getD (lowestIndex e rest) e).2.1.2 = ∅
      · rw [if_pos hgoal] at hrun
        obtain rfl := (Option.some.injEq _ _).mp hrun.symm
        simp only
        omega
      · rw [if_neg hgoal] at hrun
        by_cases hv : ((e :: rest).getD (lowestIndex e rest) e).2.1 ∈ visited
        · rw [if_pos hv] at hrun
          exact ih _ _ _ _ _ hrun (by omega)
        · rw [if_neg hv] at hrun
          refine ih _ _ _ _ _ hrun ?_
          rw [List.length_append]
          omega

/-! ### dfs: validity of the returned path and completeness -/

/-- Walking from a visited state to an unvisited one must cross an edge whose
target is covered by the stack (successor-coverage invariant). -/
lemma dfs_escape (g : Grid) (stack : List (State × List Act))
    (V : Finset State)
    (h3 : ∀ v ∈ V, ∀ a w, move g v.1 v.2 a = some w →
      w ∈ V ∨ ∃ p, (w, p) ∈ stack) :
    ∀ (k : Nat) (v t : State), v ∈ V → ReachN g k v t → t ∉ V →
      ∃ s p j, (s, p) ∈ stack ∧ ReachN g j s t := by
  intro k
  induction k with
  | zero =>
    intro v t hv hr ht
    rw [reachN_zero] at hr
    subst hr
    exact absurd hv ht
  | succ k ih =>
    intro v t hv hr ht
    obtain ⟨a, w, hm, hr'⟩ := reachN_succ.mp hr
    rcases h3 v hv a w hm with hw | ⟨p, hp⟩
    · exact ih w t hw hr' ht
    · exact ⟨w, p, k, hp, hr'⟩

/-- Master invariant run for the dfs loop: if the run returns a path, the path
replays from `s₀` to a goal; if it returns the failure signal, no goal is
reachable from `s₀`. -/
lemma dfsGo_master (g : Grid) (s₀ : State) :
    ∀ (fuel : Nat) (stack : List (State × List Act)) (V : Finset State)
      (gen exp : Nat) (r : Option (List Act) × Nat × Nat),
      (∀ e ∈ stack, replay g s₀ e.2 = some e.1) →
      (∀ v ∈ V, v.2 ≠ ∅) →
      (∀ v ∈ V, ∀ a w, move g v.1 v.2 a = some w →
        w ∈ V ∨ ∃ p, (w, p) ∈ stack) →
      (∀ n t, ReachN g n s₀ t → t ∉ V →
        ∃ s p k, (s, p) ∈ stack ∧ ReachN g k s t) →
      dfsGo g fuel stack V gen exp = some r →
      (∀ p gen' exp', r = (some p, gen', exp') →
        ∃ u, replay g s₀ p = some u ∧ u.2 = ∅) ∧
      (∀ gen' exp', r = (none, gen', exp') →
        ∀ n t, ReachN g n s₀ t → t.2 ≠ ∅) := by
  intro fuel
  induction fuel with
  | zero => intro stack V gen exp r h1 h2 h3 h4 hrun; simp [dfsGo] at hrun
  | succ fuel ih =>
    intro stack V gen exp r h1 h2 h3 h4 hrun
    cases hlast : stack.getLast? with
    | none =>
      have hnil : stack = [] := List.getLast?_eq_none_iff.mp hlast
      subst hnil
      simp only [dfsGo, hlast] at hrun
      obtain rfl := (Option.some.injEq _ _).mp hrun.symm
      constructor
      · intro p gen' exp' h
        exact absurd (congrArg Prod.fst h) (by simp)
      · rintro gen' exp' - n t hr ht
        by_cases htV : t ∈ V
        · exact h2 t htV ht
        · obtain ⟨s, p, k, hsp, -⟩ := h4 n t hr htV
          simp at hsp
    | some f =>
      obtain ⟨s, p⟩ := f
      have hsp : (s, p) ∈ stack := List.mem_of_getLast?_eq_some hlast
      have hsplit : stack.dropLast ++ [(s, p)] = stack :=
        List.dropLast_append_getLast? (s, p) (Option.mem_def.mpr hlast)
      have hcases : ∀ e ∈ stack, e ∈ stack.dropLast ∨ e = (s, p) := by
        intro e he
        rw [← hsplit] at he
        rcases List.mem_append.mp he with h | h
        · exact Or.inl h
        · exact Or.inr (List.mem_singleton.mp h)
      simp only [dfsGo, hlast] at hrun
      by_cases hgoal : s.2 = ∅
      · rw [if_pos hgoal] at hrun
        obtain rfl := (Option.some.injEq _ _).mp hrun.symm
        refine ⟨?_,
          fun gen' exp' h => absurd (congrArg Prod.fst h) (by simp)⟩
        intro q gen' exp' hq
        have hpq : p = q := by simpa using congrArg Prod.fst hq
        subst hpq
        exact ⟨s, h1 _ hsp, hgoal⟩
      · rw [if_neg hgoal] at hrun
        by_cases hv : s ∈ V
        · rw [if_pos hv] at hrun
          have h3' : ∀ v ∈ V, ∀ a w, move g v.1 v.2 a = some w →
              w ∈ V ∨ ∃ q, (w, q) ∈ stack.dropLast := by
            intro v hvV a w hm
            rcases h3 v hvV a w hm with hw | ⟨q, hq⟩
            · exact Or.inl hw
            · rcases hcases _ hq with hq' | hq'
              · exact Or.inr ⟨q, hq'⟩
              · have hw : w = s := congrArg Prod.fst hq'
                exact Or.inl (hw ▸ hv)
          refine ih _ _ _ _ _
            (fun e he => h1 e (List.dropLast_subset _ he)) h2 h3' ?_ hrun
          intro n t hr ht
          obtain ⟨s', p', k, hmem, hrk⟩ := h4 n t hr ht
          rcases hcases _ hmem with hmem' | hmem'
          · exact ⟨s', p', k, hmem', hrk⟩
          · have hs' : s' = s := congrArg Prod.fst hmem'
            subst hs'
            exact dfs_escape g _ V h3' k s' t hv hrk ht
        · rw [if_neg hv] at hrun
          have hval : replay g s₀ p = some s := h1 _ hsp
          have hsuccmem : ∀ a w, move g s.1 s.2 a = some w →
              (w, p ++ [a]) ∈ stack.dropLast ++ pushSuccs g s p := by
            intro a w hm
            exact List.mem_append_right _
              (mem_pushSuccs.mpr ⟨a, by simpa using hm, rfl⟩)
          refine ih _ _ _ _ _ ?_ ?_ ?_ ?_ hrun
          · intro e he
            rcases List.mem_append.mp he with he' | he'
            · exact h1 e (List.dropLast_subset _ he')
            · obtain ⟨a, hm, he2⟩ := mem_pushSuccs.mp he'
              rw [he2, replay_append, hval]
              simpa [replay] using hm
          · intro v hvV
            rcases Finset.mem_insert.mp hvV with rfl | hvV'
            · exact hgoal
            · exact h2 v hvV'
          · intro v hvV a w hm
            rcases Finset.mem_insert.mp hvV with rfl | hvV'
            · exact Or.inr ⟨p ++ [a], hsuccmem a w hm⟩
            · rcases h3 v hvV' a w hm with hw | ⟨q, hq⟩
              · exact Or.inl (Finset.mem_insert_of_mem hw)
              · rcases hcases _ hq with hq' | hq'
                · exact Or.inr ⟨q, List.mem_append_left _ hq'⟩
                · have hw : w = s := congrArg Prod.fst hq'
                  exact Or.inl (hw ▸ Finset.mem_insert_self _ _)
          · intro n t hr ht
            have htV : t ∉ V := fun h => ht (Finset.mem_insert_of_mem h)
            have hts : t ≠ s := fun h => ht (h ▸ Finset.mem_insert_self _ _)
            obtain ⟨s', p', k, hmem, hrk⟩ := h4 n t hr htV
            rcases hcases _ hmem with hmem' | hmem'
            · exact ⟨s', p', k, List.mem_append_left _ hmem', hrk⟩
            · have hs' : s' = s := congrArg Prod.fst hmem'
              subst hs'
              cases k with
              | zero =>
                rw [reachN_zero] at hrk
                exact absurd hrk.symm hts
              | succ k =>
                obtain ⟨a, w, hm, hr'⟩ := reachN_succ.mp hrk
                exact ⟨w, p ++ [a], k, hsuccmem a w hm, hr'⟩

/-! ### ucs: validity, completeness and optimality -/

/-- Cost-tracking escape: walking `k` steps from a visited state `v` (itself
reached in `D` steps) to an unvisited `t` crosses an edge whose target has a
frontier entry of cost at most one above its source's distance, so some
frontier entry covers `t` within total budget `D + k`. -/
lemma ucs_escape (g : Grid) (s₀ : State)
    (F : List (Nat × State × List Act)) (V : Finset State)
    (h3 : ∀ v ∈ V, ∀ a w, move g v.1 v.2 a = some w →
      w ∈ V ∨ ∃ c p, (c, w, p) ∈ F ∧ ∀ m, ReachN g m s₀ v → c ≤ m + 1) :
    ∀ (k : Nat) (v t : State) (D : Nat), v ∈ V → ReachN g k v t → t ∉ V →
      ReachN g D s₀ v →
      ∃ c s p j, (c, s, p) ∈ F ∧ ReachN g j s t ∧ c + j ≤ D + k := by
  intro k
  induction k with
  | zero =>
    intro v t D hv hr ht hD
    rw [reachN_zero] at hr
    subst hr
    exact absurd hv ht
  | succ k ih =>
    intro v t D hv hr ht hD
    obtain ⟨a, w, hm, hr'⟩ := reachN_succ.mp hr
    rcases h3 v hv a w hm with hw | ⟨c, p, hcp, hcost⟩
    · obtain ⟨c, s, p, j, hmem, hrj, hcj⟩ :=
        ih w t (D + 1) hw hr' ht (reachN_snoc hD hm)
      exact ⟨c, s, p, j, hmem, hrj, by omega⟩
    · have := hcost D hD
      exact ⟨c, w, p, k, hcp, hr', by omega⟩

/-- Master invariant run for the ucs loop: a returned path replays from `s₀`
to a goal and is no longer than any action sequence reaching a goal; a
failure signal means no goal is reachable. -/
lemma ucsGo_master (g : Grid) (s₀ : State) :
    ∀ (fuel : Nat) (F : List (Nat × State × List Act)) (V : Finset State)
      (gen exp : Nat) (r : Option (List Act) × Nat × Nat),
      (∀ e ∈ F, replay g s₀ e.2.2 = some e.2.1 ∧ e.2.2.length = e.1) →
      (∀ v ∈ V, v.2 ≠ ∅) →
      (∀ v ∈ V, ∀ a w, move g v.1 v.2 a = some w →
        w ∈ V ∨ ∃ c p, (c, w, p) ∈ F ∧ ∀ m, ReachN g m s₀ v → c ≤ m + 1) →
      (∀ n t, ReachN g n s₀ t → t ∉ V →
        ∃ c s p k, (c, s, p) ∈ F ∧ ReachN g k s t ∧ c + k ≤ n) →
      ucsGo g fuel F V gen exp = some r →
      (∀ p gen' exp', r = (some p, gen', exp') →
        (∃ u, replay g s₀ p = some u ∧ u.2 = ∅) ∧
        ∀ m u, ReachN g m s₀ u → u.2 = ∅ → p.length ≤ m) ∧
      (∀ gen' exp', r = (none, gen', exp') →
        ∀ n t, ReachN g n s₀ t → t.2 ≠ ∅) := by
  intro fuel
  induction fuel with
  | zero => intro F V gen exp r h1 h2 h3 h4 hrun; simp [ucsGo] at hrun
  | succ fuel ih =>
    intro F V gen exp r h1 h2 h3 h4 hrun
    cases F with
    | nil =>
      simp only [ucsGo] at hrun
      obtain rfl := (Option.some.injEq _ _).mp hrun.symm
      constructor
      · intro p gen' exp' h
        exact absurd (congrArg Prod.fst h) (by simp)
      · rintro gen' exp' - n t hr ht
        by_cases htV : t ∈ V
        · exact h2 t htV ht
        · obtain ⟨c, s, p, k, hmem, -⟩ := h4 n t hr htV
          simp at hmem
    | cons e rest =>
      have hidx := (lowestIndex_spec e rest).1
      have hPmem := lowestIndex_getD_mem e rest
      have hPmin : ∀ f ∈ e :: rest,
          ((e :: rest).getD (lowestIndex e rest) e).1 ≤ f.1 :=
        fun f hf => lowestIndex_min_mem e rest hf
      have hPval := h1 _ hPmem
      simp only [ucsGo] at hrun
      split at hrun
      case isTrue hgoal =>
        obtain rfl := (Option.some.injEq _ _).mp hrun.symm
        constructor
        · intro q gen' exp' hq
          have hpq : ((e :: rest).getD (lowestIndex e rest) e).2.2 = q := by
            simpa using congrArg Prod.fst hq
          subst hpq
          refine ⟨⟨_, hPval.1, hgoal⟩, ?_⟩
          intro m u hru hu
          have huV : u ∉ V := fun h => h2 u h hu
          obtain ⟨c, s, p, k, hmem, -, hck⟩ := h4 m u hru huV
          have := hPmin _ hmem
          rw [hPval.2]
          omega
        · intro gen' exp' h
          exact absurd (congrArg Prod.fst h) (by simp)
      case isFalse hgoal =>
        split at hrun
        case isTrue hv =>
          have h3' : ∀ v ∈ V, ∀ a w, move g v.1 v.2 a = some w →
              w ∈ V ∨ ∃ c p,
                (c, w, p) ∈ (e :: rest).eraseIdx (lowestIndex e rest) ∧
                ∀ m, ReachN g m s₀ v → c ≤ m + 1 := by
            intro v hvV a w hm
            rcases h3 v hvV a w hm with hw | ⟨c, p, hcp, hcost⟩
            · exact Or.inl hw
            · by_cases heq : (c, w, p) = (e :: rest).getD (lowestIndex e rest) e
              · have hw : w = ((e :: rest).getD (lowestIndex e rest) e).2.1 := by
                  rw [← heq]
                exact Or.inl (hw ▸ hv)
              · have hne : (c, w, p) ≠ (e :: rest).getD (lowestIndex e rest) (c, w, p) := by
                  rw [getD_in_range hidx _ e]
                  exact heq
                exact Or.inr ⟨c, p, mem_eraseIdx_of_ne hidx hcp hne, hcost⟩
          refine ih _ _ _ _ _
            (fun f hf => h1 f (mem_of_mem_eraseIdx' hf)) h2 h3' ?_ hrun
          intro n t hr ht
          obtain ⟨c, s, p, k, hmem, hrk, hck⟩ := h4 n t hr ht
          by_cases heq : (c, s, p) = (e :: rest).getD (lowestIndex e rest) e
          · have hs : s = ((e :: rest).getD (lowestIndex e rest) e).2.1 := by
              rw [← heq]
            have hc : c = ((e :: rest).getD (lowestIndex e rest) e).1 := by
              rw [← heq]
            have hD : ReachN g ((e :: rest).getD (lowestIndex e rest) e).1 s₀
                ((e :: rest).getD (lowestIndex e rest) e).2.1 :=
              ⟨_, hPval.1, hPval.2⟩
            obtain ⟨c', s', p', j, hmem', hrj, hcj⟩ :=
              ucs_escape g s₀ _ V h3' k _ t _ hv (hs ▸ hrk) ht hD
            exact ⟨c', s', p', j, hmem', hrj, by omega⟩
          · have hne : (c, s, p) ≠ (e :: rest).getD (lowestIndex e rest) (c, s, p) := by
              rw [getD_in_range hidx _ e]
              exact heq
            exact ⟨c, s, p, k, mem_eraseIdx_of_ne hidx hmem hne, hrk, hck⟩
        case isFalse hv =>
          have hCfact : ∀ m,
              ReachN g m s₀ ((e :: rest).getD (lowestIndex e rest) e).2.1 →
              ((e :: rest).getD (lowestIndex e rest) e).1 ≤ m := by
            intro m hm
            obtain ⟨c, s, p, k, hmem, -, hck⟩ := h4 m _ hm hv
            have := hPmin _ hmem
            omega
          have hsuccmem : ∀ a w,
              move g ((e :: rest).getD (lowestIndex e rest) e).2.1.1
                ((e :: rest).getD (lowestIndex e rest) e).2.1.2 a = some w →
              (((e :: rest).getD (lowestIndex e rest) e).1 + 1, w,
                ((e :: rest).getD (lowestIndex e rest) e).2.2 ++ [a]) ∈
                succEntries g ((e :: rest).getD (lowestIndex e rest) e).1
                  ((e :: rest).getD (lowestIndex e rest) e).2.1
                  ((e :: rest).getD (lowestIndex e rest) e).2.2 := by
            intro a w hm
            exact mem_succEntries.mpr ⟨a, by simpa using hm, rfl, rfl⟩
          refine ih _ _ _ _ _ ?_ ?_ ?_ ?_ hrun
          · intro f hf
            rcases List.mem_append.mp hf with hf' | hf'
            · exact h1 f (mem_of_mem_eraseIdx' hf')
            · obtain ⟨a, hm, hc, hp⟩ := mem_succEntries.mp hf'
              constructor
              · rw [hp, replay_append, hPval.1]
                simpa [replay] using hm
              · rw [hp, hc, List.length_append, List.length_singleton,
                  hPval.2]
          · intro v hvV
            rcases Finset.mem_insert.mp hvV with rfl | hvV'
            · exact hgoal
            · exact h2 v hvV'
          · intro v hvV a w hm
            rcases Finset.mem_insert.mp hvV with rfl | hvV'
            · refine Or.inr ⟨((e :: rest).getD (lowestIndex e rest) e).1 + 1,
                ((e :: rest).getD (lowestIndex e rest) e).2.2 ++ [a],
                List.mem_append_right _ (hsuccmem a w hm), ?_⟩
              intro m hm'
              have := hCfact m hm'
              omega
            · rcases h3 v hvV' a w hm with hw | ⟨c, p, hcp, hcost⟩
              · exact Or.inl (Finset.mem_insert_of_mem hw)
              · by_cases heq : (c, w, p) =
                    (e :: rest).getD (lowestIndex e rest) e
                · have hw : w = ((e :: rest).getD (lowestIndex e rest) e).2.1 := by
                    rw [← heq]
                  exact Or.inl (hw ▸ Finset.mem_insert_self _ _)
                · have hne : (c, w, p) ≠
                      (e :: rest).getD (lowestIndex e rest) (c, w, p) := by
                    rw [getD_in_range hidx _ e]
                    exact heq
                  exact Or.inr ⟨c, p, List.mem_append_left _
                    (mem_eraseIdx_of_ne hidx hcp hne), hcost⟩
          · intro n t hr ht
            have htV : t ∉ V := fun h => ht (Finset.mem_insert_of_mem h)
            have hts : t ≠ ((e :: rest).getD (lowestIndex e rest) e).2.1 :=
              fun h => ht (h ▸ Finset.mem_insert_self _ _)
            obtain ⟨c, s, p, k, hmem, hrk, hck⟩ := h4 n t hr htV
            by_cases heq : (c, s, p) = (e :: rest).getD (lowestIndex e rest) e
            · have hs : s = ((e :: rest).getD (lowestIndex e rest) e).2.1 := by
                rw [← heq]
              have hc : c = ((e :: rest).getD (lowestIndex e rest) e).1 := by
                rw [← heq]
              cases k with
              | zero =>
                rw [reachN_zero] at hrk
                exact absurd (hs ▸ hrk.symm) hts
              | succ k =>
                obtain ⟨a, w, hm, hr'⟩ := reachN_succ.mp (hs ▸ hrk)
                refine ⟨((e :: rest).getD (lowestIndex e rest) e).1 + 1, w,
                  ((e :: rest).getD (lowestIndex e rest) e).2.2 ++ [a], k,
                  List.mem_append_right _ (hsuccmem a w hm), hr', by omega⟩
            · have hne : (c, s, p) ≠
                  (e :: rest).getD (lowestIndex e rest) (c, s, p) := by
                rw [getD_in_range hidx _ e]
                exact heq
              exact ⟨c, s, p, k, List.mem_append_left _
                (mem_eraseIdx_of_ne hidx hmem hne), hrk, hck⟩

/-- In the 1x3 world `@#*` the dirty cell is walled off: every action from
the initial state is rejected, so no state but the initial one is reachable
and no goal state is reachable at all. -/
lemma blocked_no_goal :
    ∀ (n : Nat) (t : State),
      ReachN [['@', '#', '*']] n ((0, 0), {((0, 2) : Pos)}) t → t.2 ≠ ∅ := by
  have hstuck : ∀ a : Act,
      move [['@', '#', '*']] (0, 0) {((0, 2) : Pos)} a = none := by decide
  rintro n t ⟨p, hp, -⟩
  cases p with
  | nil =>
    have ht : t = ((0, 0), {((0, 2) : Pos)}) := by
      simpa [replay] using hp.symm
    subst ht
    decide
  | cons a q =>
    rw [replay, hstuck a] at hp
    simp at hp

/-! ### The claims -/

/-- C1.  For every grid and initial state from which a goal state (empty
dirty set) is reachable, `ucs` returns a path that replays through `move`
from the initial state to a goal state and whose length is a lower bound of
the length of every action sequence reaching a goal state — i.e. it equals
the breadth-first shortest-path distance to a goal in the induced state
graph, and no strictly shorter action sequence reaches a goal. -/
theorem ucs_returns_shortest_path (g : Grid) (s₀ : State) (n : Nat)
    (t : State) (hreach : ReachN g n s₀ t) (hgoal : t.2 = ∅) :
    ∃ p gen exp, ucs g s₀ = (some p, gen, exp) ∧
      (∃ u, replay g s₀ p = some u ∧ u.2 = ∅) ∧
      ∀ m u, ReachN g m s₀ u → u.2 = ∅ → p.length ≤ m := by
  obtain ⟨r, hr, hres⟩ := ucs_run g s₀
  have hmaster := ucsGo_master g s₀ (initFuel g s₀) [(0, s₀, [])] ∅ 1 0 r
    (by intro f hf
        simp only [List.mem_singleton] at hf
        subst hf
        exact ⟨rfl, rfl⟩)
    (fun v hv => absurd hv (Finset.not_mem_empty v))
    (fun v hv => absurd hv (Finset.not_mem_empty v))
    (by intro m u hru hu
        exact ⟨0, s₀, [], m, List.mem_singleton.mpr rfl, hru, by omega⟩)
    hr
  obtain ⟨ropt, rgen, rexp⟩ := r
  cases ropt with
  | none => exact absurd hgoal (hmaster.2 rgen rexp rfl n t hreach)
  | some p =>
    obtain ⟨hval, hopt⟩ := hmaster.1 p rgen rexp rfl
    exact ⟨p, rgen, rexp, hres, hval, hopt⟩

/-- Witness for C1 on scenario B (`@*`): the goal is reachable in two steps
and `ucs` returns a shortest valid path. -/
theorem ucs_returns_shortest_path_witness :
    ReachN [['@', '*']] 2 ((0, 0), {((0, 1) : Pos)}) ((0, 1), ∅) ∧
    (∃ p gen exp,
      ucs [['@', '*']] ((0, 0), {((0, 1) : Pos)}) = (some p, gen, exp) ∧
      (∃ u, replay [['@', '*']] ((0, 0), {((0, 1) : Pos)}) p = some u ∧
        u.2 = ∅) ∧
      ∀ m u, ReachN [['@', '*']] m ((0, 0), {((0, 1) : Pos)}) u → u.2 = ∅ →
        p.length ≤ m) :=
  ⟨⟨[Act.E, Act.V], by decide, rfl⟩,
    ucs_returns_shortest_path [['@', '*']] ((0, 0), {((0, 1) : Pos)}) 2
      ((0, 1), ∅) ⟨[Act.E, Act.V], by decide, rfl⟩ rfl⟩

/-- C2.  For every grid and initial state from which a goal state is
reachable, `dfs` returns some path that replays through `move` from the
initial state with every step accepted, ending in a state with an empty
dirty set. -/
theorem dfs_returns_valid_path (g : Grid) (s₀ : State) (n : Nat)
    (t : State) (hreach : ReachN g n s₀ t) (hgoal : t.2 = ∅) :
    ∃ p gen exp, dfs g s₀ = (some p, gen, exp) ∧
      ∃ u, replay g s₀ p = some u ∧ u.2 = ∅ := by
  obtain ⟨r, hr, hres⟩ := dfs_run g s₀
  have hmaster := dfsGo_master g s₀ (initFuel g s₀) [(s₀, [])] ∅ 1 0 r
    (by intro f hf
        simp only [List.mem_singleton] at hf
        subst hf
        exact rfl)
    (fun v hv => absurd hv (Finset.not_mem_empty v))
    (fun v hv => absurd hv (Finset.not_mem_empty v))
    (by intro m u hru hu
        exact ⟨s₀, [], m, List.mem_singleton.mpr rfl, hru⟩)
    hr
  obtain ⟨ropt, rgen, rexp⟩ := r
  cases ropt with
  | none => exact absurd hgoal (hmaster.2 rgen rexp rfl n t hreach)
  | some p =>
    exact ⟨p, rgen, rexp, hres, hmaster.1 p rgen rexp rfl⟩

/-- Witness for C2 on scenario A (`@`, dirty under the agent): the goal is
reachable in one step and `dfs` returns a valid path. -/
theorem dfs_returns_valid_path_witness :
    ReachN [['@']] 1 ((0, 0), {((0, 0) : Pos)}) ((0, 0), ∅) ∧
    (∃ p gen exp,
      dfs [['@']] ((0, 0), {((0, 0) : Pos)}) = (some p, gen, exp) ∧
      ∃ u, replay [['@']] ((0, 0), {((0, 0) : Pos)}) p = some u ∧ u.2 = ∅) :=
  ⟨⟨[Act.V], by decide, rfl⟩,
    dfs_returns_valid_path [['@']] ((0, 0), {((0, 0) : Pos)}) 1 ((0, 0), ∅)
      ⟨[Act.V], by decide, rfl⟩ rfl⟩

/-- C3.  For every grid and every initial state whose dirty set is empty,
each strategy returns the empty path with `nodes_generated = 1` and
`nodes_expanded = 1`: the seed is counted as generated, and the single pop
that recognizes the goal is counted as expanded. -/
theorem empty_dirty_immediate (g : Grid) (p₀ : Pos) :
    dfs g (p₀, ∅) = (some [], 1, 1) ∧ ucs g (p₀, ∅) = (some [], 1, 1) := by
  have hfuel : initFuel g (p₀, ∅) =
      (5 * (stateSpace g (p₀, ∅)).card + 1) + 1 := rfl
  constructor
  · unfold dfs
    rw [hfuel]
    simp [dfsGo]
  · unfold ucs
    rw [hfuel]
    simp [ucsGo, lowestIndex, lowestIndexAux]

/-- Counterexample to C4 as stated: on the 1x1 open grid with the agent on
the single dirty cell, the strategies do not report one generated and one
expanded node (each reports two of each: the goal successor is generated and
then popped). -/
theorem scenarioA_counters_counterexample :
    ¬(dfs [['@']] ((0, 0), {((0, 0) : Pos)}) = (some [Act.V], 1, 1) ∧
      ucs [['@']] ((0, 0), {((0, 0) : Pos)}) = (some [Act.V], 1, 1)) := by
  decide

/-- C4 (amended).  On the 1x1 open grid with the agent on the single dirty
cell, both strategies return the single-action path `[V]`, with
`nodes_generated = 2` and `nodes_expanded = 2`. -/
theorem scenarioA_amended :
    dfs [['@']] ((0, 0), {((0, 0) : Pos)}) = (some [Act.V], 2, 2) ∧
    ucs [['@']] ((0, 0), {((0, 0) : Pos)}) = (some [Act.V], 2, 2) := by
  decide

/-- C5.  `move` with the vacuum action succeeds exactly when the agent's
position is dirty; the successful result keeps the agent position and
removes exactly that position from the dirty set, and otherwise `move`
rejects. -/
theorem move_vacuum_spec (g : Grid) (pos : Pos) (dirty : Finset Pos) :
    (∀ s', move g pos dirty Act.V = some s' ↔
      (pos ∈ dirty ∧ s'.1 = pos ∧
        ∀ x, x ∈ s'.2 ↔ x ∈ dirty ∧ x ≠ pos)) ∧
    (move g pos dirty Act.V = none ↔ pos ∉ dirty) := by
  constructor
  · intro s'
    rw [move_eq_some_V]
    constructor
    · rintro ⟨hmem, rfl⟩
      refine ⟨hmem, rfl, fun x => ?_⟩
      rw [Finset.mem_erase, and_comm]
    · rintro ⟨hmem, h1, h2⟩
      refine ⟨hmem, ?_⟩
      obtain ⟨s1, s2⟩ := s'
      simp only at h1 h2
      have hs2 : s2 = dirty.erase pos := by
        ext x
        rw [h2 x, Finset.mem_erase, and_comm]
      rw [h1, hs2]
  · unfold move
    rw [if_pos rfl]
    split
    · simp_all
    · simp_all

/-- C6.  `move` with a directional action targets the cell obtained by
adding the action's unit delta, succeeds exactly when the target is within
grid bounds and not a wall, moving the agent there with the dirty set
unchanged, and rejects otherwise. -/
theorem move_directional_spec (g : Grid) (pos : Pos) (dirty : Finset Pos)
    (a : Act) (ha : a ≠ Act.V) :
    (∀ s', move g pos dirty a = some s' ↔
      (0 ≤ pos.1 + (MOVES a).1 ∧ pos.1 + (MOVES a).1 < gridHeight g ∧
        0 ≤ pos.2 + (MOVES a).2 ∧ pos.2 + (MOVES a).2 < gridWidth g) ∧
      cellAt g (pos.1 + (MOVES a).1) (pos.2 + (MOVES a).2) ≠ '#' ∧
      s' = ((pos.1 + (MOVES a).1, pos.2 + (MOVES a).2), dirty)) ∧
    (move g pos dirty a = none ↔
      ¬((0 ≤ pos.1 + (MOVES a).1 ∧ pos.1 + (MOVES a).1 < gridHeight g ∧
          0 ≤ pos.2 + (MOVES a).2 ∧ pos.2 + (MOVES a).2 < gridWidth g) ∧
        cellAt g (pos.1 + (MOVES a).1) (pos.2 + (MOVES a).2) ≠ '#')) := by
  refine ⟨fun s' => move_eq_some_dir ha, ?_⟩
  cases hm : move g pos dirty a with
  | some s' =>
    obtain ⟨hb, hw, -⟩ := (move_eq_some_dir ha).mp hm
    constructor
    · intro h
      cases h
    · intro h
      exact absurd ⟨hb, hw⟩ h
  | none =>
    constructor
    · rintro - hc
      have hsome : move g pos dirty a =
          some ((pos.1 + (MOVES a).1, pos.2 + (MOVES a).2), dirty) :=
        (move_eq_some_dir ha).mpr ⟨hc.1, hc.2, rfl⟩
      rw [hm] at hsome
      cases hsome
    · rintro -
      rfl

/-- Witness for C6: moving east on the 1x2 grid `@*` succeeds onto the
in-bounds, non-wall cell `(0, 1)` with the dirty set unchanged. -/
theorem move_directional_spec_witness :
    Act.E ≠ Act.V ∧
    move [['@', '*']] ((0 : Int), (0 : Int)) (∅ : Finset Pos) Act.E =
      some ((((0 : Int) + (MOVES Act.E).1, (0 : Int) + (MOVES Act.E).2)),
        (∅ : Finset Pos)) :=
  ⟨by decide,
    ((move_directional_spec [['@', '*']] ((0 : Int), (0 : Int))
      (∅ : Finset Pos) Act.E (by decide)).1 _).mpr
      ⟨by constructor
          · decide
          · constructor
            · decide
            · constructor <;> decide,
        by decide, rfl⟩⟩

/-- C7.  The frontier scan of `ucs` (`lowestIndex`, used by the loop to pick
the entry it removes) selects an in-range entry whose accumulated cost is
minimal over the whole frontier, and every entry at a strictly smaller index
— i.e. every earlier-inserted entry, as the frontier list only ever grows by
appending and shrinks by in-place removal — has strictly larger cost, so
ties are broken in favour of the earliest-inserted entry. -/
theorem ucs_pop_minimal (e : Nat × State × List Act)
    (rest : List (Nat × State × List Act)) :
    lowestIndex e rest < (e :: rest).length ∧
    (∀ f ∈ e :: rest, ((e :: rest).getD (lowestIndex e rest) e).1 ≤ f.1) ∧
    (∀ j, j < lowestIndex e rest →
      ((e :: rest).getD (lowestIndex e rest) e).1 <
        ((e :: rest).getD j e).1) :=
  ⟨(lowestIndex_spec e rest).1, fun _ hf => lowestIndex_min_mem e rest hf,
    (lowestIndex_spec e rest).2.2⟩

/-- Witness for C7 on a two-entry frontier with costs `[2, 1]`: the selected
entry (index 1, cost 1) is a lower bound of the head's cost and strictly
beats the earlier-inserted index 0. -/
theorem ucs_pop_minimal_witness :
    ((((2 : Nat), (((0 : Int), (0 : Int)), (∅ : Finset Pos)), ([] : List Act)) ::
        [((1 : Nat), (((0 : Int), (0 : Int)), (∅ : Finset Pos)), ([] : List Act))]).getD
      (lowestIndex ((2 : Nat), (((0 : Int), (0 : Int)), (∅ : Finset Pos)), ([] : List Act))
        [((1 : Nat), (((0 : Int), (0 : Int)), (∅ : Finset Pos)), ([] : List Act))])
      ((2 : Nat), (((0 : Int), (0 : Int)), (∅ : Finset Pos)), ([] : List Act))).1 ≤ 2 ∧
    ((((2 : Nat), (((0 : Int), (0 : Int)), (∅ : Finset Pos)), ([] : List Act)) ::
        [((1 : Nat), (((0 : Int), (0 : Int)), (∅ : Finset Pos)), ([] : List Act))]).getD
      (lowestIndex ((2 : Nat), (((0 : Int), (0 : Int)), (∅ : Finset Pos)), ([] : List Act))
        [((1 : Nat), (((0 : Int), (0 : Int)), (∅ : Finset Pos)), ([] : List Act))])
      ((2 : Nat), (((0 : Int), (0 : Int)), (∅ : Finset Pos)), ([] : List Act))).1 <
    ((((2 : Nat), (((0 : Int), (0 : Int)), (∅ : Finset Pos)), ([] : List Act)) ::
        [((1 : Nat), (((0 : Int), (0 : Int)), (∅ : Finset Pos)), ([] : List Act))]).getD 0
      ((2 : Nat), (((0 : Int), (0 : Int)), (∅ : Finset Pos)), ([] : List Act))).1 :=
  ⟨(ucs_pop_minimal ((2 : Nat), (((0 : Int), (0 : Int)), (∅ : Finset Pos)), ([] : List Act))
      [((1 : Nat), (((0 : Int), (0 : Int)), (∅ : Finset Pos)), ([] : List Act))]).2.1 _
      (List.mem_cons_self _ _),
    (ucs_pop_minimal ((2 : Nat), (((0 : Int), (0 : Int)), (∅ : Finset Pos)), ([] : List Act))
      [((1 : Nat), (((0 : Int), (0 : Int)), (∅ : Finset Pos)), ([] : List Act))]).2.2 0
      (by decide)⟩

/-- C8.  For every grid and initial state, both fuelled loops complete with
a definite result (a path with counters or the failure signal with
counters) within the proved `initFuel` bound: the reachable state space is
finite and the visited set prevents re-expansion. -/
theorem both_strategies_terminate (g : Grid) (s₀ : State) :
    (∃ r, dfsGo g (initFuel g s₀) [(s₀, [])] ∅ 1 0 = some r) ∧
    (∃ r, ucsGo g (initFuel g s₀) [(0, s₀, [])] ∅ 1 0 = some r) := by
  obtain ⟨r, hr, -⟩ := dfs_run g s₀
  obtain ⟨r', hr', -⟩ := ucs_run g s₀
  exact ⟨⟨r, hr⟩, ⟨r', hr'⟩⟩

/-- C9.  For every grid and initial state from which no goal state is
reachable, each strategy exhausts its frontier and returns the explicit
no-path signal `None` together with final counters. -/
theorem search_exhaustion_returns_none (g : Grid) (s₀ : State)
    (hnogoal : ∀ n t, ReachN g n s₀ t → t.2 ≠ ∅) :
    (∃ gen exp, dfs g s₀ = (none, gen, exp)) ∧
    (∃ gen exp, ucs g s₀ = (none, gen, exp)) := by
  constructor
  · obtain ⟨p, gen, exp, heq, u, hu, hgoal⟩ | h :=
      (by
        obtain ⟨r, hr, hres⟩ := dfs_run g s₀
        have hmaster := dfsGo_master g s₀ (initFuel g s₀) [(s₀, [])] ∅ 1 0 r
          (by intro f hf
              simp only [List.mem_singleton] at hf
              subst hf
              exact rfl)
          (fun v hv => absurd hv (Finset.not_mem_empty v))
          (fun v hv => absurd hv (Finset.not_mem_empty v))
          (by intro m u hru hu
              exact ⟨s₀, [], m, List.mem_singleton.mpr rfl, hru⟩)
          hr
        obtain ⟨ropt, rgen, rexp⟩ := r
        cases ropt with
        | none => exact Or.inr ⟨rgen, rexp, hres⟩
        | some p =>
          obtain ⟨u, hu, hgoal⟩ := hmaster.1 p rgen rexp rfl
          exact Or.inl ⟨p, rgen, rexp, hres, u, hu, hgoal⟩ :
        (∃ p gen exp, dfs g s₀ = (some p, gen, exp) ∧
          ∃ u, replay g s₀ p = some u ∧ u.2 = ∅) ∨
        (∃ gen exp, dfs g s₀ = (none, gen, exp)))
    · exact absurd hgoal (hnogoal p.length u ⟨p, hu, rfl⟩)
    · exact h
  · obtain ⟨p, gen, exp, heq, u, hu, hgoal⟩ | h :=
      (by
        obtain ⟨r, hr, hres⟩ := ucs_run g s₀
        have hmaster := ucsGo_master g s₀ (initFuel g s₀) [(0, s₀, [])] ∅ 1 0 r
          (by intro f hf
              simp only [List.mem_singleton] at hf
              subst hf
              exact ⟨rfl, rfl⟩)
          (fun v hv => absurd hv (Finset.not_mem_empty v))
          (fun v hv => absurd hv (Finset.not_mem_empty v))
          (by intro m u hru hu
              exact ⟨0, s₀, [], m, List.mem_singleton.mpr rfl, hru, by omega⟩)
          hr
        obtain ⟨ropt, rgen, rexp⟩ := r
        cases ropt with
        | none => exact Or.inr ⟨rgen, rexp, hres⟩
        | some p =>
          obtain ⟨⟨u, hu, hgoal⟩, -⟩ := hmaster.1 p rgen rexp rfl
          exact Or.inl ⟨p, rgen, rexp, hres, u, hu, hgoal⟩ :
        (∃ p gen exp, ucs g s₀ = (some p, gen, exp) ∧
          ∃ u, replay g s₀ p = some u ∧ u.2 = ∅) ∨
        (∃ gen exp, ucs g s₀ = (none, gen, exp)))
    · exact absurd hgoal (hnogoal p.length u ⟨p, hu, rfl⟩)
    · exact h

/-- Witness for C9 on scenario C (`@#*`): the dirty cell is unreachable and
both strategies report the no-path signal. -/
theorem search_exhaustion_returns_none_witness :
    (∀ n t, ReachN [['@', '#', '*']] n ((0, 0), {((0, 2) : Pos)}) t →
      t.2 ≠ ∅) ∧
    (∃ gen exp,
      dfs [['@', '#', '*']] ((0, 0), {((0, 2) : Pos)}) = (none, gen, exp)) ∧
    (∃ gen exp,
      ucs [['@', '#', '*']] ((0, 0), {((0, 2) : Pos)}) = (none, gen, exp)) :=
  ⟨blocked_no_goal,
    search_exhaustion_returns_none [['@', '#', '*']]
      ((0, 0), {((0, 2) : Pos)}) blocked_no_goal⟩

/-- C10.  In every run of `dfs` and of `ucs`, the returned `nodes_expanded`
never exceeds `nodes_generated`: generation starts at 1 for the seeded
entry, each insertion increments it, and every pop that increments the
expansion count consumes an entry already counted as generated. -/
theorem expanded_le_generated (g : Grid) (s₀ : State) :
    (dfs g s₀).2.2 ≤ (dfs g s₀).2.1 ∧ (ucs g s₀).2.2 ≤ (ucs g s₀).2.1 := by
  constructor
  · obtain ⟨r, hr, hres⟩ := dfs_run g s₀
    rw [hres]
    exact dfsGo_exp_le_gen g _ _ _ _ _ r hr (by simp)
  · obtain ⟨r, hr, hres⟩ := ucs_run g s₀
    rw [hres]
    exact ucsGo_exp_le_gen g _ _ _ _ _ r hr (by simp)
